import Mathlib

/-!
Verification of the tree-ensemble MIP encoders
(`gurobi_ml/sklearn/decisiontrees.py` and
`gurobi_ml/sklearn/gradient_boosting_regressor.py`).

A trained decision tree is an array-of-structs: per node index, a left and
right child index (negative for leaves), a split feature, a split threshold
and a predicted value.  The encoder adds, for each example, one binary
"node activation" variable per tree node together with linear and indicator
constraints; we model a feasible solution of that constraint set as a
predicate over the activation assignment (`Bool` per node), the input values
and the output value (rationals stand in for the solver's reals).  The
`float_type` conversion applied to thresholds is modelled as an arbitrary
function `ftype` on the rationals.
-/

/-- Array-of-structs decision tree, as exposed by `predictor.tree_`:
`children_left`/`children_right` are child indices (negative for leaves),
`feature` the split feature, `threshold` the split value and `value` the
node's predicted value (`tree.value[node][0][0]`). -/
structure DecisionTree where
  capacity : ℕ
  children_left : ℕ → ℤ
  children_right : ℕ → ℤ
  feature : ℕ → ℕ
  threshold : ℕ → ℚ
  value : ℕ → ℚ

/-- Index of the left child (meaningful when `children_left n ≥ 0`). -/
@[reducible] def DecisionTree.leftChild (t : DecisionTree) (n : ℕ) : ℕ :=
  (t.children_left n).toNat

/-- Index of the right child (meaningful when `children_left n ≥ 0`). -/
@[reducible] def DecisionTree.rightChild (t : DecisionTree) (n : ℕ) : ℕ :=
  (t.children_right n).toNat

/-- Structural well-formedness of the node arrays, as produced by the
training library: at least one node, children stored after (and within
capacity of) their parent, and every non-root node is some node's child. -/
@[reducible] def TreeWF (t : DecisionTree) : Prop :=
  0 < t.capacity ∧
  (∀ n < t.capacity, 0 ≤ t.children_left n →
      n < t.leftChild n ∧ t.leftChild n < t.capacity ∧
      n < t.rightChild n ∧ t.rightChild n < t.capacity) ∧
  (∀ n < t.capacity, 0 < n →
      ∃ m ∈ Finset.range n, 0 ≤ t.children_left m ∧
        (t.leftChild m = n ∨ t.rightChild m = n))

/-- The four bulk inequalities of lines 45-48 of `decisiontrees.py`, for one
example and one non-leaf node (`nodes` is the example's row of activation
variables, a binary taking values in `{0,1}` via `Bool.toNat`). -/
@[reducible] def interNodeOk (t : DecisionTree) (nodes : ℕ → Bool) (n : ℕ) : Prop :=
  (nodes (t.leftChild n)).toNat ≤ (nodes n).toNat ∧
  (nodes (t.rightChild n)).toNat ≤ (nodes n).toNat ∧
  (nodes n).toNat ≤ (nodes (t.rightChild n)).toNat + (nodes (t.leftChild n)).toNat ∧
  (nodes (t.rightChild n)).toNat + (nodes (t.leftChild n)).toNat ≤ 1

/-- The per-node constraints of the node-splitting loop (lines 51-67 of
`decisiontrees.py`) for one example: for a split node, the two branch
indicator constraints (the dead per-node `scale` computation of lines 55-56
is kept, including its immediate overwrite to `1`); for a leaf node, the
output indicator constraint. -/
@[reducible] def nodeSplitOk (t : DecisionTree) (eps scale : ℚ) (ftype : ℚ → ℚ)
    (x : ℕ → ℚ) (y : ℚ) (nodes : ℕ → Bool) (n : ℕ) : Prop :=
  let threshold : ℚ := ftype (t.threshold n)
  let scale : ℚ := max |1 / threshold| scale
  let scale : ℚ := 1
  if 0 ≤ t.children_left n then
    (nodes (t.leftChild n) = true → scale * x (t.feature n) ≤ scale * threshold) ∧
    (nodes (t.rightChild n) = true → scale * x (t.feature n) ≥ scale * threshold + eps)
  else
    (nodes n = true → y = t.value n)

/-- Sum of the leaf activation variables of one example (line 70). -/
@[reducible] def leafActivationSum (t : DecisionTree) (nodes : ℕ → Bool) : ℕ :=
  ∑ n ∈ Finset.range t.capacity, if t.children_left n < 0 then (nodes n).toNat else 0

/-- `np.min(tree.value)` (line 72): minimum of the value array over all
nodes, leaves and internal nodes alike. -/
def valueMin (t : DecisionTree) : ℚ :=
  if h : t.capacity = 0 then 0
  else (Finset.range t.capacity).inf' (Finset.nonempty_range_iff.mpr h) t.value

/-- `np.max(tree.value)` (line 73): maximum over all nodes. -/
def valueMax (t : DecisionTree) : ℚ :=
  if h : t.capacity = 0 then 0
  else (Finset.range t.capacity).sup' (Finset.nonempty_range_iff.mpr h) t.value

/-- The leaf nodes of the tree. -/
def leafFinset (t : DecisionTree) : Finset ℕ :=
  (Finset.range t.capacity).filter (fun n => t.children_left n < 0)

/-- Minimum of the predicted values over the leaf nodes only (the quantity
the specification claims the output lower bound is set to). -/
def leafValueMin (t : DecisionTree) : ℚ :=
  if h : (leafFinset t).Nonempty then (leafFinset t).inf' h t.value else 0

/-- Maximum of the predicted values over the leaf nodes only. -/
def leafValueMax (t : DecisionTree) : ℚ :=
  if h : (leafFinset t).Nonempty then (leafFinset t).sup' h t.value else 0

/-- Feasibility, for one example, of the full constraint set added by
`DecisionTreeRegressorConstr._mip_model`: the bulk inter-node constraints,
the node-splitting constraints, the "exactly one leaf" constraint, and the
output bounds `output.LB = np.min(tree.value)`, `output.UB = np.max(tree.value)`. -/
@[reducible] def treeFeasible (t : DecisionTree) (eps scale : ℚ) (ftype : ℚ → ℚ)
    (x : ℕ → ℚ) (y : ℚ) (nodes : ℕ → Bool) : Prop :=
  (∀ n < t.capacity, 0 ≤ t.children_left n → interNodeOk t nodes n) ∧
  (∀ n < t.capacity, nodeSplitOk t eps scale ftype x y nodes n) ∧
  leafActivationSum t nodes = 1 ∧
  valueMin t ≤ y ∧ y ≤ valueMax t

/-- Feasibility of the whole `(examples × nodes)` variable block: the
constraints are added independently for every example row `k < nex`. -/
@[reducible] def treeMipFeasible (t : DecisionTree) (eps scale : ℚ) (ftype : ℚ → ℚ)
    (nex : ℕ) (X : ℕ → ℕ → ℚ) (Y : ℕ → ℚ) (nodes : ℕ → ℕ → Bool) : Prop :=
  ∀ k < nex, treeFeasible t eps scale ftype (X k) (Y k) (nodes k)

/-- The threshold constant actually used in the indicator constraints:
the stored threshold converted by `float_type` (line 54). -/
@[reducible] def encThreshold (t : DecisionTree) (ftype : ℚ → ℚ) : ℕ → ℚ :=
  fun n => ftype (t.threshold n)

/-- Fuel-indexed traversal of the tree: from node `n`, follow the split
`x[feature] ≤ threshold ? left : right` until a leaf is reached. -/
def evalFrom (t : DecisionTree) (thr : ℕ → ℚ) (x : ℕ → ℚ) : ℕ → ℕ → ℕ
  | 0, n => n
  | fuel + 1, n =>
    if 0 ≤ t.children_left n then
      if x (t.feature n) ≤ thr n then evalFrom t thr x fuel (t.leftChild n)
      else evalFrom t thr x fuel (t.rightChild n)
    else n

/-- Leaf reached by direct traversal from the root (capacity is enough fuel
for any well-formed tree, since child indices strictly increase). -/
def evalLeaf (t : DecisionTree) (thr : ℕ → ℚ) (x : ℕ → ℚ) : ℕ :=
  evalFrom t thr x t.capacity 0

/-- Direct tree evaluation: the value of the leaf reached by traversal. -/
def treeEval (t : DecisionTree) (thr : ℕ → ℚ) (x : ℕ → ℚ) : ℚ :=
  t.value (evalLeaf t thr x)

/-! ### Helper lemmas about the single-tree constraint set -/

/-- At a split node the node-splitting constraints are the two branch
indicators over the `float_type`-converted threshold (the dead scale factor
being `1`). -/
lemma nodeSplitOk_split (t : DecisionTree) (eps scale : ℚ) (ftype : ℚ → ℚ)
    (x : ℕ → ℚ) (y : ℚ) (nodes : ℕ → Bool) (n : ℕ) (h0 : 0 ≤ t.children_left n) :
    nodeSplitOk t eps scale ftype x y nodes n ↔
      ((nodes (t.leftChild n) = true → x (t.feature n) ≤ ftype (t.threshold n)) ∧
       (nodes (t.rightChild n) = true → ftype (t.threshold n) + eps ≤ x (t.feature n))) := by
  simp [nodeSplitOk, h0, ge_iff_le]

/-- At a leaf node the node-splitting constraint is the output indicator. -/
lemma nodeSplitOk_leaf (t : DecisionTree) (eps scale : ℚ) (ftype : ℚ → ℚ)
    (x : ℕ → ℚ) (y : ℚ) (nodes : ℕ → Bool) (n : ℕ) (h0 : t.children_left n < 0) :
    nodeSplitOk t eps scale ftype x y nodes n ↔ (nodes n = true → y = t.value n) := by
  simp [nodeSplitOk, not_le.mpr h0]

/-- The "sum of leaf activations equals one" constraint forces some leaf to
be active. -/
lemma exists_active_leaf (t : DecisionTree) (nodes : ℕ → Bool)
    (h : leafActivationSum t nodes = 1) :
    ∃ l, l < t.capacity ∧ t.children_left l < 0 ∧ nodes l = true := by
  have hne : leafActivationSum t nodes ≠ 0 := by rw [h]; exact one_ne_zero
  obtain ⟨l, hl, hterm⟩ := Finset.exists_ne_zero_of_sum_ne_zero hne
  by_cases hleaf : t.children_left l < 0
  · refine ⟨l, Finset.mem_range.mp hl, hleaf, ?_⟩
    rw [if_pos hleaf] at hterm
    cases hb : nodes l
    · rw [hb] at hterm; exact absurd rfl hterm
    · rfl
  · rw [if_neg hleaf] at hterm
    exact absurd rfl hterm

/-- Under the bulk inter-node constraints, activation propagates from any
active node up to the root: an ancestor chain exists because every non-root
node is the child of a lower-indexed node. -/
lemma active_root (t : DecisionTree) (nodes : ℕ → Bool) (hwf : TreeWF t)
    (hinter : ∀ n < t.capacity, 0 ≤ t.children_left n → interNodeOk t nodes n) :
    ∀ N n, n ≤ N → n < t.capacity → nodes n = true → nodes 0 = true := by
  intro N
  induction N with
  | zero =>
      intro n hn _ hact
      rw [Nat.le_zero.mp hn] at hact
      exact hact
  | succ N ih =>
      intro n hn hcap hact
      rcases Nat.eq_zero_or_pos n with h0 | h0
      · rw [h0] at hact; exact hact
      · obtain ⟨m, hmmem, hml, hchild⟩ := hwf.2.2 n hcap h0
        have hmn : m < n := Finset.mem_range.mp hmmem
        have hmcap : m < t.capacity := lt_trans hmn hcap
        have hi := hinter m hmcap hml
        have hactm : nodes m = true := by
          rcases hchild with h | h
          · have h1 := hi.1
            rw [h, hact] at h1
            cases hb : nodes m
            · rw [hb] at h1; exact absurd h1 (by norm_num)
            · rfl
          · have h1 := hi.2.1
            rw [h, hact] at h1
            cases hb : nodes m
            · rw [hb] at h1; exact absurd h1 (by norm_num)
            · rfl
        exact ih m (by omega) hmcap hactm

/-- Descent: starting from any active node, traversal by the encoded
thresholds stays on active nodes and reaches an active leaf.  At each split
the indicator constraints rule the off-branch child out, and the bulk
constraint `active[n] ≤ active[L] + active[R]` forces the on-branch child. -/
lemma descend_active (t : DecisionTree) (eps scale : ℚ) (ftype : ℚ → ℚ)
    (x : ℕ → ℚ) (y : ℚ) (nodes : ℕ → Bool) (hwf : TreeWF t) (heps : 0 < eps)
    (hfeas : treeFeasible t eps scale ftype x y nodes) :
    ∀ fuel n, n < t.capacity → t.capacity ≤ n + fuel → nodes n = true →
      evalFrom t (encThreshold t ftype) x fuel n < t.capacity ∧
      t.children_left (evalFrom t (encThreshold t ftype) x fuel n) < 0 ∧
      nodes (evalFrom t (encThreshold t ftype) x fuel n) = true := by
  intro fuel
  induction fuel with
  | zero => intro n hn hcap _; omega
  | succ fuel ih =>
      intro n hn hcap hact
      by_cases h0 : 0 ≤ t.children_left n
      · obtain ⟨hL, hR⟩ :=
          (nodeSplitOk_split t eps scale ftype x y nodes n h0).mp (hfeas.2.1 n hn)
        obtain ⟨hnl, hlc, hnr, hrc⟩ := hwf.2.1 n hn h0
        have hsome : nodes (t.leftChild n) = true ∨ nodes (t.rightChild n) = true := by
          have h3 := (hfeas.1 n hn h0).2.2.1
          rw [hact] at h3
          cases hbl : nodes (t.leftChild n)
          · cases hbr : nodes (t.rightChild n)
            · rw [hbl, hbr] at h3; simp at h3
            · exact Or.inr rfl
          · exact Or.inl rfl
        by_cases hx : x (t.feature n) ≤ ftype (t.threshold n)
        · have hlf : nodes (t.leftChild n) = true := by
            rcases hsome with h | h
            · exact h
            · exfalso; have := hR h; linarith
          have hstep : evalFrom t (encThreshold t ftype) x (fuel + 1) n
              = evalFrom t (encThreshold t ftype) x fuel (t.leftChild n) := by
            simp only [evalFrom, encThreshold]
            rw [if_pos h0, if_pos hx]
          rw [hstep]
          exact ih (t.leftChild n) hlc (by omega) hlf
        · have hrt : nodes (t.rightChild n) = true := by
            rcases hsome with h | h
            · exact absurd (hL h) hx
            · exact h
          have hstep : evalFrom t (encThreshold t ftype) x (fuel + 1) n
              = evalFrom t (encThreshold t ftype) x fuel (t.rightChild n) := by
            simp only [evalFrom, encThreshold]
            rw [if_pos h0, if_neg hx]
          rw [hstep]
          exact ih (t.rightChild n) hrc (by omega) hrt
      · have hstep : evalFrom t (encThreshold t ftype) x (fuel + 1) n = n := by
          simp only [evalFrom]
          rw [if_neg h0]
        rw [hstep]
        exact ⟨hn, not_le.mp h0, hact⟩

/-- Core round-trip lemma: for every feasible solution of the single-tree
constraint set (with a positive `eps`), the output value equals the result
of direct traversal by the encoded thresholds. -/
lemma tree_output_eval (t : DecisionTree) (eps scale : ℚ) (ftype : ℚ → ℚ)
    (x : ℕ → ℚ) (y : ℚ) (nodes : ℕ → Bool) (hwf : TreeWF t) (heps : 0 < eps)
    (hfeas : treeFeasible t eps scale ftype x y nodes) :
    y = treeEval t (encThreshold t ftype) x := by
  obtain ⟨l0, hl0, hlf0, hact0⟩ := exists_active_leaf t nodes hfeas.2.2.1
  have hroot : nodes 0 = true := active_root t nodes hwf hfeas.1 l0 l0 le_rfl hl0 hact0
  obtain ⟨hcapL, hleafL, hactL⟩ :=
    descend_active t eps scale ftype x y nodes hwf heps hfeas t.capacity 0 hwf.1 (by omega) hroot
  have hout :=
    (nodeSplitOk_leaf t eps scale ftype x y nodes _ hleafL).mp (hfeas.2.1 _ hcapL) hactL
  simpa [treeEval, evalLeaf] using hout

/-! ### Ensemble encoders -/

/-- Feasibility of the constraint set added by
`RandomForestRegressorConstr._mip_model` (lines 127-148 of
`decisiontrees.py`): one auxiliary output variable `treevars[k, i]` per
(example, tree), one single-tree encoder per tree writing into its column,
and the bulk constraint `n_estimators * output[:, 0] == treevars.sum(axis=1)`. -/
@[reducible] def rfMipFeasible (trees : ℕ → DecisionTree) (n_estimators : ℕ)
    (eps scale : ℚ) (ftype : ℚ → ℚ) (nex : ℕ) (X : ℕ → ℕ → ℚ) (Y : ℕ → ℚ)
    (treevars : ℕ → ℕ → ℚ) (nodes : ℕ → ℕ → ℕ → Bool) : Prop :=
  (∀ i < n_estimators,
      treeMipFeasible (trees i) eps scale ftype nex X (fun k => treevars k i) (nodes i)) ∧
  (∀ k < nex, (n_estimators : ℚ) * Y k = ∑ i ∈ Finset.range n_estimators, treevars k i)

/-- Feasibility of the constraint set added by
`GradientBoostingRegressorConstr._mip_model` in `decisiontrees.py`
(lines 85-110): one auxiliary output variable `treevars[k, i]` per
(example, stage), one single-tree encoder per stage, and the constraint
`output[:, 0] == learning_rate * treevars.sum(axis=1) + constant[0][0]`. -/
@[reducible] def gbtMipFeasible (trees : ℕ → DecisionTree) (n_estimators : ℕ)
    (learning_rate constant : ℚ) (eps scale : ℚ) (ftype : ℚ → ℚ) (nex : ℕ)
    (X : ℕ → ℕ → ℚ) (Y : ℕ → ℚ) (treevars : ℕ → ℕ → ℚ)
    (nodes : ℕ → ℕ → ℕ → Bool) : Prop :=
  (∀ i < n_estimators,
      treeMipFeasible (trees i) eps scale ftype nex X (fun k => treevars k i) (nodes i)) ∧
  (∀ k < nex,
      Y k = learning_rate * (∑ i ∈ Finset.range n_estimators, treevars k i) + constant)

/-- Feasibility of the constraint set added by the split-module variant
`gradient_boosting_regressor.py` (lines 75-106): the auxiliary variables
form a 3-D array `treevars[k, i, j]` with a trailing output dimension of 1,
stage `i` is encoded into the slice `treevars[:, i, :]`, and the constraint
is `output == learning_rate * treevars.sum(axis=1) + constant[0][0]`,
component-wise over the `(examples × 1)` output matrix. -/
@[reducible] def gbtMipFeasibleV2 (trees : ℕ → DecisionTree) (n_estimators : ℕ)
    (learning_rate constant : ℚ) (eps scale : ℚ) (ftype : ℚ → ℚ) (nex : ℕ)
    (X : ℕ → ℕ → ℚ) (Y : ℕ → ℕ → ℚ) (treevars : ℕ → ℕ → ℕ → ℚ)
    (nodes : ℕ → ℕ → ℕ → Bool) : Prop :=
  (∀ i < n_estimators,
      treeMipFeasible (trees i) eps scale ftype nex X (fun k => treevars k i 0) (nodes i)) ∧
  (∀ k < nex, ∀ j < 1,
      Y k j = learning_rate * (∑ i ∈ Finset.range n_estimators, treevars k i j) + constant)

/-! ### Construction-time dimensionality checking -/

/-- The error outcomes observable from this layer: the library's `NoModel`
exception (carrying the offending predictor, represented here by its output
dimension) and a bare Python `AssertionError` from a failed `assert`. -/
inductive EncodeError where
  | noModel : ℕ → EncodeError
  | assertionFailed : EncodeError
deriving DecidableEq

/-- Modelled from the spec: `AbstractPredictorConstr` (in `..modeling`, not
under `src/`) validates caller-supplied output variables or auto-creates
them with inferred shape `(examples × predictor output dimension)`, so the
output dimension inspected inside `_mip_model` equals the predictor's
output dimension. -/
def outdimOfPredictor (n_outputs : ℕ) : ℕ := n_outputs

/-- The check of `DecisionTreeRegressorConstr.__init__` (lines 20-25 of
`decisiontrees.py`): raise `NoModel` when `predictor.n_outputs_ ≠ 1`,
before any constraint is added. -/
def decisionTreeConstrNew (n_outputs : ℕ) : Except EncodeError Unit :=
  if n_outputs ≠ 1 then Except.error (EncodeError.noModel n_outputs) else Except.ok ()

/-- The check of `RandomForestRegressorConstr.__init__` (lines 116-125):
raise `NoModel` when `predictor.n_outputs_ ≠ 1`, before any constraint is
added. -/
def randomForestConstrNew (n_outputs : ℕ) : Except EncodeError Unit :=
  if n_outputs ≠ 1 then Except.error (EncodeError.noModel n_outputs) else Except.ok ()

/-- The check of `GradientBoostingRegressorConstr._mip_model` in
`decisiontrees.py` (lines 98-100): raise `NoModel` when the output
dimension is not 1, before the auxiliary variables and constraints are
created. -/
def gradientBoostingConstrNew (n_outputs : ℕ) : Except EncodeError Unit :=
  if outdimOfPredictor n_outputs ≠ 1 then
    Except.error (EncodeError.noModel (outdimOfPredictor n_outputs))
  else Except.ok ()

/-- The check of `GradientBoostingRegressorConstr._mip_model` in the
split-module variant `gradient_boosting_regressor.py` (lines 88-89):
`assert outdim == 1, ...`, i.e. a bare assertion failure rather than a
`NoModel` exception, before any constraint is added. -/
def gradientBoostingConstrNewV2 (n_outputs : ℕ) : Except EncodeError Unit :=
  if outdimOfPredictor n_outputs ≠ 1 then Except.error EncodeError.assertionFailed
  else Except.ok ()

/-! ### Concrete instances used by the witnesses and counterexamples -/

/-- A three-node tree: root 0 splits feature 0 at threshold 1 with children
1 (left leaf, value 10) and 2 (right leaf, value 20); the root's own value
is 15. -/
def T1 : DecisionTree :=
  ⟨3, fun n => if n = 0 then 1 else -1, fun n => if n = 0 then 2 else -1,
   fun _ => 0, fun n => if n = 0 then 1 else -2,
   fun n => if n = 0 then 15 else if n = 1 then 10 else 20⟩

/-- One example whose single feature is 0 (routes left in `T1`). -/
def X1 : ℕ → ℕ → ℚ := fun _ _ => 0

/-- One example whose single feature is exactly the threshold 1 of `T1`. -/
def XB : ℕ → ℕ → ℚ := fun _ _ => 1

/-- Output value 10 (the left leaf of `T1`). -/
def Y1 : ℕ → ℚ := fun _ => 10

/-- Activation assignment: root and left leaf active. -/
def A1 : ℕ → ℕ → Bool := fun _ n => n == 0 || n == 1

/-- Like `T1` but with stored threshold 3/2 (to be rounded by a nontrivial
`float_type` stand-in). -/
def T10 : DecisionTree :=
  ⟨3, fun n => if n = 0 then 1 else -1, fun n => if n = 0 then 2 else -1,
   fun _ => 0, fun n => if n = 0 then 3/2 else -2,
   fun n => if n = 0 then 15 else if n = 1 then 10 else 20⟩

/-- A stand-in `float_type` conversion mapping every threshold to 1 (in
particular rounding 3/2 down to 1). -/
def F10 : ℚ → ℚ := fun _ => 1

/-- Feature value 5/4: strictly between the rounded threshold 1 and the
stored threshold 3/2. -/
def X10 : ℕ → ℕ → ℚ := fun _ _ => 5/4

/-- Output value 20 (the right leaf). -/
def Y10 : ℕ → ℚ := fun _ => 20

/-- Activation assignment: root and right leaf active. -/
def A10 : ℕ → ℕ → Bool := fun _ n => n == 0 || n == 2

/-- A well-formed tree whose internal-node value (-5) lies outside the range
of its leaf values (1 and 2). -/
def T8 : DecisionTree :=
  ⟨3, fun n => if n = 0 then 1 else -1, fun n => if n = 0 then 2 else -1,
   fun _ => 0, fun n => if n = 0 then 1 else -2,
   fun n => if n = 0 then -5 else if n = 1 then 1 else 2⟩

/-- Forest/boosting auxiliary variables: every tree predicts 10. -/
def RFvars : ℕ → ℕ → ℚ := fun _ _ => 10

/-- Forest output: the mean of two predictions of 10. -/
def RFY : ℕ → ℚ := fun _ => 10

/-- Per-tree activation assignments for the two-tree ensembles. -/
def RFnodes : ℕ → ℕ → ℕ → Bool := fun _ => A1

/-- Boosting output: `1/2 * (10 + 10) + 3 = 13`. -/
def GBY : ℕ → ℚ := fun _ => 13

/-- Boosting output for the split-module variant, as an `(examples × 1)`
matrix. -/
def GBY2 : ℕ → ℕ → ℚ := fun _ _ => 13

/-- 3-D auxiliary variables of the split-module variant. -/
def GBvars2 : ℕ → ℕ → ℕ → ℚ := fun _ _ _ => 10

lemma T1_wf : TreeWF T1 := by decide

lemma T1_feasible : treeMipFeasible T1 1 1 id 1 X1 Y1 A1 := by
  intro k hk
  interval_cases k
  refine ⟨by decide, ?_, by decide, by decide, by decide⟩
  have h : ∀ n < 3, nodeSplitOk T1 1 1 id (X1 0) (Y1 0) (A1 0) n := by
    intro n hn
    interval_cases n <;>
      norm_num [nodeSplitOk, T1, X1, Y1, A1, DecisionTree.leftChild, DecisionTree.rightChild] <;>
      decide
  exact h

lemma T1_boundary_feasible : treeFeasible T1 1 1 id (XB 0) (Y1 0) (A1 0) := by
  refine ⟨by decide, ?_, by decide, by decide, by decide⟩
  have h : ∀ n < 3, nodeSplitOk T1 1 1 id (XB 0) (Y1 0) (A1 0) n := by
    intro n hn
    interval_cases n <;>
      norm_num [nodeSplitOk, T1, XB, Y1, A1, DecisionTree.leftChild, DecisionTree.rightChild] <;>
      decide
  exact h

lemma T10_wf : TreeWF T10 := by decide

lemma T10_feasible : treeFeasible T10 (1/4) 1 F10 (X10 0) (Y10 0) (A10 0) := by
  refine ⟨by decide, ?_, by decide, by decide, by decide⟩
  have h : ∀ n < 3, nodeSplitOk T10 (1/4) 1 F10 (X10 0) (Y10 0) (A10 0) n := by
    intro n hn
    interval_cases n <;>
      norm_num [nodeSplitOk, T10, X10, Y10, A10, F10,
        DecisionTree.leftChild, DecisionTree.rightChild] <;>
      decide
  exact h

lemma RF_feasible : rfMipFeasible (fun _ => T1) 2 1 1 id 1 X1 RFY RFvars RFnodes := by
  refine ⟨fun i _ => T1_feasible, fun k hk => ?_⟩
  norm_num [RFY, RFvars, Finset.sum_range_succ]

lemma GB_feasible :
    gbtMipFeasible (fun _ => T1) 2 (1/2) 3 1 1 id 1 X1 GBY RFvars RFnodes := by
  refine ⟨fun i _ => T1_feasible, fun k hk => ?_⟩
  norm_num [GBY, RFvars, Finset.sum_range_succ]

lemma GB2_feasible :
    gbtMipFeasibleV2 (fun _ => T1) 2 (1/2) 3 1 1 id 1 X1 GBY2 GBvars2 RFnodes := by
  refine ⟨fun i _ => T1_feasible, fun k hk j hj => ?_⟩
  norm_num [GBY2, GBvars2, Finset.sum_range_succ]

/-! ### Claim theorems -/

/-- C1: for every decision tree and every example whose input variables are
all fixed to constants, any feasible solution of the constraint set added by
the single-tree encoder assigns the output variable the leaf value reached
by following the tree's splits (as encoded, i.e. with the `float_type`
conversion applied to the stored thresholds) on that example's input
values. -/
theorem dt_encoding_roundtrip (t : DecisionTree) (eps scale : ℚ) (ftype : ℚ → ℚ)
    (nex : ℕ) (X : ℕ → ℕ → ℚ) (Y : ℕ → ℚ) (nodes : ℕ → ℕ → Bool) (k : ℕ)
    (hwf : TreeWF t) (heps : 0 < eps) (hk : k < nex)
    (hfeas : treeMipFeasible t eps scale ftype nex X Y nodes) :
    Y k = treeEval t (encThreshold t ftype) (X k) :=
  tree_output_eval t eps scale ftype (X k) (Y k) (nodes k) hwf heps (hfeas k hk)

/-- Witness for C1: the concrete tree `T1`, the example with feature value
0 and the solution activating root and left leaf are feasible, and the
output 10 is exactly the value of direct traversal. -/
theorem dt_encoding_roundtrip_witness :
    TreeWF T1 ∧ (0:ℚ) < 1 ∧ (0:ℕ) < 1 ∧ treeMipFeasible T1 1 1 id 1 X1 Y1 A1 ∧
    Y1 0 = treeEval T1 (encThreshold T1 id) (X1 0) :=
  ⟨T1_wf, by norm_num, by norm_num, T1_feasible,
   dt_encoding_roundtrip T1 1 1 id 1 X1 Y1 A1 0 T1_wf (by norm_num) (by norm_num) T1_feasible⟩

/-- C2: in every feasible solution of the single-tree constraint set, for
every example, exactly one leaf-activation variable equals 1. -/
theorem dt_exactly_one_active_leaf (t : DecisionTree) (eps scale : ℚ) (ftype : ℚ → ℚ)
    (nex : ℕ) (X : ℕ → ℕ → ℚ) (Y : ℕ → ℚ) (nodes : ℕ → ℕ → Bool) (k : ℕ)
    (hk : k < nex) (hfeas : treeMipFeasible t eps scale ftype nex X Y nodes) :
    ∃! n, n < t.capacity ∧ t.children_left n < 0 ∧ nodes k n = true := by
  obtain ⟨l, hl, hlf, hact⟩ := exists_active_leaf t (nodes k) (hfeas k hk).2.2.1
  refine ⟨l, ⟨hl, hlf, hact⟩, ?_⟩
  rintro b ⟨hb, hbl, hba⟩
  by_contra hne
  have hsub : ({b, l} : Finset ℕ) ⊆ Finset.range t.capacity := by
    intro m hm
    rcases Finset.mem_insert.mp hm with h | h
    · exact Finset.mem_range.mpr (h ▸ hb)
    · exact Finset.mem_range.mpr ((Finset.mem_singleton.mp h) ▸ hl)
  have h2 : (∑ n ∈ ({b, l} : Finset ℕ),
      if t.children_left n < 0 then (nodes k n).toNat else 0) = 2 := by
    rw [Finset.sum_pair hne]
    simp [hbl, hlf, hba, hact]
  have hle := Finset.sum_le_sum_of_subset (f := fun n =>
    if t.children_left n < 0 then (nodes k n).toNat else 0) hsub
  rw [h2] at hle
  have hsum := (hfeas k hk).2.2.1
  simp only [leafActivationSum] at hsum
  rw [hsum] at hle
  exact absurd hle (by norm_num)

/-- Witness for C2: in the concrete feasible solution for `T1`, node 1 is
the unique active leaf. -/
theorem dt_exactly_one_active_leaf_witness :
    (0:ℕ) < 1 ∧ treeMipFeasible T1 1 1 id 1 X1 Y1 A1 ∧
    (∃! n, n < T1.capacity ∧ T1.children_left n < 0 ∧ A1 0 n = true) :=
  ⟨by norm_num, T1_feasible,
   dt_exactly_one_active_leaf T1 1 1 id 1 X1 Y1 A1 0 (by norm_num) T1_feasible⟩

/-- C3: over the binary domain, the four bulk inequalities for a non-leaf
node are together equivalent to "the parent activation is the maximum (the
logical OR) of the two child activations, and the two child activations are
mutually exclusive". -/
theorem internode_encodes_or (t : DecisionTree) (nodes : ℕ → Bool) (n : ℕ) :
    interNodeOk t nodes n ↔
      ((nodes n).toNat = max (nodes (t.leftChild n)).toNat (nodes (t.rightChild n)).toNat ∧
       (nodes (t.leftChild n)).toNat + (nodes (t.rightChild n)).toNat ≤ 1) := by
  cases hA : nodes n <;> cases hB : nodes (t.leftChild n) <;>
    cases hC : nodes (t.rightChild n) <;>
    simp [interNodeOk, hA, hB, hC]

/-- C4: if an example's split-feature value is fixed exactly to the
threshold constant of the branch indicators, then the right child cannot be
active in any feasible solution, and if the node itself is active the left
child must be (the boundary routes left). -/
theorem boundary_routes_left (t : DecisionTree) (eps scale : ℚ) (ftype : ℚ → ℚ)
    (x : ℕ → ℚ) (y : ℚ) (nodes : ℕ → Bool) (n : ℕ)
    (heps : 0 < eps) (hfeas : treeFeasible t eps scale ftype x y nodes)
    (hn : n < t.capacity) (hsp : 0 ≤ t.children_left n)
    (hx : x (t.feature n) = encThreshold t ftype n) :
    nodes (t.rightChild n) = false ∧ (nodes n = true → nodes (t.leftChild n) = true) := by
  obtain ⟨hL, hR⟩ := (nodeSplitOk_split t eps scale ftype x y nodes n hsp).mp (hfeas.2.1 n hn)
  simp only [encThreshold] at hx
  have hrf : nodes (t.rightChild n) = false := by
    cases hb : nodes (t.rightChild n)
    · rfl
    · exfalso
      have h := hR hb
      rw [hx] at h
      linarith
  refine ⟨hrf, fun hact => ?_⟩
  have h3 := (hfeas.1 n hn hsp).2.2.1
  rw [hact, hrf] at h3
  cases hb : nodes (t.leftChild n)
  · rw [hb] at h3; simp at h3
  · rfl

/-- Witness for C4: in `T1` with the feature fixed to the threshold 1, the
feasible solution routes to the left leaf and the right leaf is inactive. -/
theorem boundary_routes_left_witness :
    (0:ℚ) < 1 ∧ treeFeasible T1 1 1 id (XB 0) (Y1 0) (A1 0) ∧
    (0:ℕ) < T1.capacity ∧ (0:ℤ) ≤ T1.children_left 0 ∧
    XB 0 (T1.feature 0) = encThreshold T1 id 0 ∧
    (A1 0 (T1.rightChild 0) = false ∧ (A1 0 0 = true → A1 0 (T1.leftChild 0) = true)) :=
  ⟨by norm_num, T1_boundary_feasible, by decide, by decide, by decide,
   boundary_routes_left T1 1 1 id (XB 0) (Y1 0) (A1 0) 0 (by norm_num)
     T1_boundary_feasible (by decide) (by decide) (by decide)⟩

/-- Counterexample for C5: the split-module gradient-boosting variant fails
its dimension check with a bare assertion failure, not with the `NoModel`
error the claim asserts for both source variants. -/
theorem gbt_split_variant_asserts :
    gradientBoostingConstrNewV2 2 = Except.error EncodeError.assertionFailed ∧
    EncodeError.assertionFailed ≠ EncodeError.noModel 2 :=
  ⟨rfl, by decide⟩

/-- C5 (amended): for any output dimension other than 1, the single-tree
and random-forest encoders and the combined-module gradient-boosting
encoder raise `NoModel` carrying the offending predictor before adding any
constraint; the split-module gradient-boosting variant instead fails an
`assert`, raising a bare `AssertionError`. -/
theorem dim_checks_raise (d : ℕ) (hd : d ≠ 1) :
    decisionTreeConstrNew d = Except.error (EncodeError.noModel d) ∧
    randomForestConstrNew d = Except.error (EncodeError.noModel d) ∧
    gradientBoostingConstrNew d = Except.error (EncodeError.noModel d) ∧
    gradientBoostingConstrNewV2 d = Except.error EncodeError.assertionFailed := by
  refine ⟨?_, ?_, ?_, ?_⟩ <;>
    simp [decisionTreeConstrNew, randomForestConstrNew, gradientBoostingConstrNew,
      gradientBoostingConstrNewV2, outdimOfPredictor, hd]

/-- Witness for C5 (amended), at output dimension 2. -/
theorem dim_checks_raise_witness :
    (2:ℕ) ≠ 1 ∧
    (decisionTreeConstrNew 2 = Except.error (EncodeError.noModel 2) ∧
     randomForestConstrNew 2 = Except.error (EncodeError.noModel 2) ∧
     gradientBoostingConstrNew 2 = Except.error (EncodeError.noModel 2) ∧
     gradientBoostingConstrNewV2 2 = Except.error EncodeError.assertionFailed) :=
  ⟨by decide, dim_checks_raise 2 (by decide)⟩

/-- C6: in every feasible solution of the forest encoder's constraint set,
each auxiliary variable holds its tree's prediction, and the output equals
the arithmetic mean of the per-tree predictions. -/
theorem rf_output_is_mean (trees : ℕ → DecisionTree) (n_estimators : ℕ)
    (eps scale : ℚ) (ftype : ℚ → ℚ) (nex : ℕ) (X : ℕ → ℕ → ℚ) (Y : ℕ → ℚ)
    (treevars : ℕ → ℕ → ℚ) (nodes : ℕ → ℕ → ℕ → Bool) (k : ℕ)
    (hwf : ∀ i < n_estimators, TreeWF (trees i)) (heps : 0 < eps)
    (hN : 0 < n_estimators) (hk : k < nex)
    (hfeas : rfMipFeasible trees n_estimators eps scale ftype nex X Y treevars nodes) :
    (∀ i < n_estimators,
        treevars k i = treeEval (trees i) (encThreshold (trees i) ftype) (X k)) ∧
    Y k = (∑ i ∈ Finset.range n_estimators,
        treeEval (trees i) (encThreshold (trees i) ftype) (X k)) / n_estimators := by
  have haux : ∀ i < n_estimators,
      treevars k i = treeEval (trees i) (encThreshold (trees i) ftype) (X k) :=
    fun i hi => tree_output_eval (trees i) eps scale ftype (X k) (treevars k i)
      (nodes i k) (hwf i hi) heps (hfeas.1 i hi k hk)
  refine ⟨haux, ?_⟩
  have hsum := hfeas.2 k hk
  rw [Finset.sum_congr rfl (fun i hi => haux i (Finset.mem_range.mp hi))] at hsum
  have hne : (n_estimators : ℚ) ≠ 0 := Nat.cast_ne_zero.mpr (by omega)
  rw [eq_div_iff hne]
  linarith [hsum]

/-- Witness for C6: a two-tree forest of copies of `T1`; both auxiliary
variables are 10 and the output is the mean 10. -/
theorem rf_output_is_mean_witness :
    (∀ i < 2, TreeWF ((fun _ => T1) i)) ∧ (0:ℚ) < 1 ∧ (0:ℕ) < 2 ∧ (0:ℕ) < 1 ∧
    rfMipFeasible (fun _ => T1) 2 1 1 id 1 X1 RFY RFvars RFnodes ∧
    ((∀ i < 2, RFvars 0 i = treeEval T1 (encThreshold T1 id) (X1 0)) ∧
     RFY 0 = (∑ i ∈ Finset.range 2, treeEval T1 (encThreshold T1 id) (X1 0)) / 2) :=
  ⟨fun i _ => T1_wf, by norm_num, by norm_num, by norm_num, RF_feasible,
   rf_output_is_mean (fun _ => T1) 2 1 1 id 1 X1 RFY RFvars RFnodes 0
     (fun i _ => T1_wf) (by norm_num) (by norm_num) (by norm_num) RF_feasible⟩

/-- C7: in every feasible solution of the boosting encoder's constraint set
(in either source variant), the output equals the learning rate times the
sum of the per-stage predictions plus the trained initial constant. -/
theorem gbt_output_affine (trees : ℕ → DecisionTree) (n_estimators : ℕ)
    (learning_rate constant : ℚ) (eps scale : ℚ) (ftype : ℚ → ℚ) (nex : ℕ)
    (X : ℕ → ℕ → ℚ) (Y : ℕ → ℚ) (treevars : ℕ → ℕ → ℚ) (nodes : ℕ → ℕ → ℕ → Bool)
    (Y2 : ℕ → ℕ → ℚ) (treevars2 : ℕ → ℕ → ℕ → ℚ) (nodes2 : ℕ → ℕ → ℕ → Bool) (k : ℕ)
    (hwf : ∀ i < n_estimators, TreeWF (trees i)) (heps : 0 < eps) (hk : k < nex)
    (h1 : gbtMipFeasible trees n_estimators learning_rate constant eps scale ftype
        nex X Y treevars nodes)
    (h2 : gbtMipFeasibleV2 trees n_estimators learning_rate constant eps scale ftype
        nex X Y2 treevars2 nodes2) :
    Y k = learning_rate * (∑ i ∈ Finset.range n_estimators,
        treeEval (trees i) (encThreshold (trees i) ftype) (X k)) + constant ∧
    Y2 k 0 = learning_rate * (∑ i ∈ Finset.range n_estimators,
        treeEval (trees i) (encThreshold (trees i) ftype) (X k)) + constant := by
  constructor
  · have haux : ∀ i ∈ Finset.range n_estimators,
        treevars k i = treeEval (trees i) (encThreshold (trees i) ftype) (X k) :=
      fun i hi => tree_output_eval (trees i) eps scale ftype (X k) (treevars k i)
        (nodes i k) (hwf i (Finset.mem_range.mp hi)) heps
        (h1.1 i (Finset.mem_range.mp hi) k hk)
    rw [h1.2 k hk, Finset.sum_congr rfl haux]
  · have haux2 : ∀ i ∈ Finset.range n_estimators,
        treevars2 k i 0 = treeEval (trees i) (encThreshold (trees i) ftype) (X k) :=
      fun i hi => tree_output_eval (trees i) eps scale ftype (X k) (treevars2 k i 0)
        (nodes2 i k) (hwf i (Finset.mem_range.mp hi)) heps
        (h2.1 i (Finset.mem_range.mp hi) k hk)
    rw [h2.2 k hk 0 (by norm_num), Finset.sum_congr rfl haux2]

/-- Witness for C7: two boosting stages of copies of `T1` with learning
rate 1/2 and constant 3, in both variants; the output is 13. -/
theorem gbt_output_affine_witness :
    (∀ i < 2, TreeWF ((fun _ => T1) i)) ∧ (0:ℚ) < 1 ∧ (0:ℕ) < 1 ∧
    gbtMipFeasible (fun _ => T1) 2 (1/2) 3 1 1 id 1 X1 GBY RFvars RFnodes ∧
    gbtMipFeasibleV2 (fun _ => T1) 2 (1/2) 3 1 1 id 1 X1 GBY2 GBvars2 RFnodes ∧
    (GBY 0 = 1/2 * (∑ i ∈ Finset.range 2, treeEval T1 (encThreshold T1 id) (X1 0)) + 3 ∧
     GBY2 0 0 = 1/2 * (∑ i ∈ Finset.range 2, treeEval T1 (encThreshold T1 id) (X1 0)) + 3) :=
  ⟨fun i _ => T1_wf, by norm_num, by norm_num, GB_feasible, GB2_feasible,
   gbt_output_affine (fun _ => T1) 2 (1/2) 3 1 1 id 1 X1 GBY RFvars RFnodes
     GBY2 GBvars2 RFnodes 0 (fun i _ => T1_wf) (by norm_num) (by norm_num)
     GB_feasible GB2_feasible⟩

/-- Counterexample for C8: for the well-formed tree `T8`, whose internal
node carries the value -5 while its leaves carry 1 and 2, the encoder sets
`output.LB = np.min(tree.value) = -5`, not the leaf minimum 1: the bound is
taken over all node values, not over the leaf values as claimed. -/
theorem output_bounds_not_leaf_bounds :
    TreeWF T8 ∧ valueMin T8 = -5 ∧ leafValueMin T8 = 1 ∧
    valueMin T8 ≠ leafValueMin T8 := by
  refine ⟨by decide, by decide, by decide, by decide⟩

/-- C8 (amended): the output bounds are set to the minimum and maximum of
the value array over all nodes (internal nodes included); when every node's
value lies within the range of the leaf values (as holds for trees produced
by the training library, where an internal value is a weighted mean of the
leaf values below it), these coincide with the leaf minimum and maximum. -/
theorem output_bounds_all_nodes (t : DecisionTree)
    (hleaf : ∃ l, l < t.capacity ∧ t.children_left l < 0)
    (hb : ∀ n < t.capacity, leafValueMin t ≤ t.value n ∧ t.value n ≤ leafValueMax t) :
    valueMin t = leafValueMin t ∧ valueMax t = leafValueMax t := by
  obtain ⟨l, hl, hlf⟩ := hleaf
  have hcap : ¬ t.capacity = 0 := by omega
  have hne : (leafFinset t).Nonempty :=
    ⟨l, Finset.mem_filter.mpr ⟨Finset.mem_range.mpr hl, hlf⟩⟩
  have hmin : valueMin t
      = (Finset.range t.capacity).inf' (Finset.nonempty_range_iff.mpr hcap) t.value := by
    rw [valueMin, dif_neg hcap]
  have hmax : valueMax t
      = (Finset.range t.capacity).sup' (Finset.nonempty_range_iff.mpr hcap) t.value := by
    rw [valueMax, dif_neg hcap]
  have hlmin : leafValueMin t = (leafFinset t).inf' hne t.value := by
    rw [leafValueMin, dif_pos hne]
  have hlmax : leafValueMax t = (leafFinset t).sup' hne t.value := by
    rw [leafValueMax, dif_pos hne]
  constructor
  · rw [hmin, hlmin]
    apply le_antisymm
    · obtain ⟨b, hbmem, hbeq⟩ := Finset.exists_mem_eq_inf' hne t.value
      rw [hbeq]
      exact Finset.inf'_le _ (Finset.mem_filter.mp hbmem).1
    · obtain ⟨m, hmmem, hmeq⟩ :=
        Finset.exists_mem_eq_inf' (Finset.nonempty_range_iff.mpr hcap) t.value
      rw [hmeq, ← hlmin]
      exact (hb m (Finset.mem_range.mp hmmem)).1
  · rw [hmax, hlmax]
    apply le_antisymm
    · obtain ⟨m, hmmem, hmeq⟩ :=
        Finset.exists_mem_eq_sup' (Finset.nonempty_range_iff.mpr hcap) t.value
      rw [hmeq, ← hlmax]
      exact (hb m (Finset.mem_range.mp hmmem)).2
    · obtain ⟨b, hbmem, hbeq⟩ := Finset.exists_mem_eq_sup' hne t.value
      rw [hbeq]
      exact Finset.le_sup' _ (Finset.mem_filter.mp hbmem).1

/-- Witness for C8 (amended): `T1` has a leaf, its internal value 15 lies
within the leaf range [10, 20], and the bounds coincide with the leaf
bounds. -/
theorem output_bounds_all_nodes_witness :
    (∃ l, l < T1.capacity ∧ T1.children_left l < 0) ∧
    (∀ n < T1.capacity, leafValueMin T1 ≤ T1.value n ∧ T1.value n ≤ leafValueMax T1) ∧
    (valueMin T1 = leafValueMin T1 ∧ valueMax T1 = leafValueMax T1) :=
  ⟨⟨1, by decide, by decide⟩, by decide,
   output_bounds_all_nodes T1 ⟨1, by decide, by decide⟩ (by decide)⟩

/-- C9: the per-node scale factor computed from the threshold magnitude is
immediately overwritten to 1, so the constraint set added by the single-tree
encoder is (definitionally) the same for every value of the `scale`
construction parameter as for `scale = 1`. -/
theorem scale_parameter_no_effect (t : DecisionTree) (eps scale : ℚ) (ftype : ℚ → ℚ) :
    treeMipFeasible t eps scale ftype = treeMipFeasible t eps 1 ftype := rfl

/-- C10: at an active split node of a feasible solution, branch routing is
decided by the `float_type`-converted threshold (the constant appearing in
both branch indicator constraints): the left child is active exactly when
the input is at most the converted threshold, and the right child exactly
otherwise — regardless of how the input compares with the stored
threshold. -/
theorem rounded_threshold_decides_branch (t : DecisionTree) (eps scale : ℚ)
    (ftype : ℚ → ℚ) (x : ℕ → ℚ) (y : ℚ) (nodes : ℕ → Bool) (n : ℕ)
    (heps : 0 < eps) (hfeas : treeFeasible t eps scale ftype x y nodes)
    (hn : n < t.capacity) (hsp : 0 ≤ t.children_left n) (hact : nodes n = true) :
    (nodes (t.leftChild n) = true ↔ x (t.feature n) ≤ encThreshold t ftype n) ∧
    (nodes (t.rightChild n) = true ↔ ¬ x (t.feature n) ≤ encThreshold t ftype n) := by
  obtain ⟨hL, hR⟩ := (nodeSplitOk_split t eps scale ftype x y nodes n hsp).mp (hfeas.2.1 n hn)
  simp only [encThreshold]
  have h3 := (hfeas.1 n hn hsp).2.2.1
  rw [hact] at h3
  constructor
  · constructor
    · exact hL
    · intro hx
      have hrf : nodes (t.rightChild n) = false := by
        cases hb : nodes (t.rightChild n)
        · rfl
        · exfalso
          have h := hR hb
          linarith
      rw [hrf] at h3
      cases hb : nodes (t.leftChild n)
      · rw [hb] at h3; simp at h3
      · rfl
  · constructor
    · intro hb hx
      have h := hR hb
      linarith
    · intro hx
      have hlf : nodes (t.leftChild n) = false := by
        cases hb : nodes (t.leftChild n)
        · rfl
        · exact absurd (hL hb) hx
      rw [hlf] at h3
      cases hb : nodes (t.rightChild n)
      · rw [hb] at h3; simp at h3
      · rfl

/-- Witness for C10: `T10` stores threshold 3/2, the `float_type` stand-in
converts it to 1, and for the feature value 5/4 — strictly between the two —
the feasible solution routes right, as the converted threshold dictates
(direct comparison with the stored threshold 3/2 would route left). -/
theorem rounded_threshold_decides_branch_witness :
    (0:ℚ) < 1/4 ∧ treeFeasible T10 (1/4) 1 F10 (X10 0) (Y10 0) (A10 0) ∧
    (0:ℕ) < T10.capacity ∧ (0:ℤ) ≤ T10.children_left 0 ∧ A10 0 0 = true ∧
    ((A10 0 (T10.leftChild 0) = true ↔ X10 0 (T10.feature 0) ≤ encThreshold T10 F10 0) ∧
     (A10 0 (T10.rightChild 0) = true ↔ ¬ X10 0 (T10.feature 0) ≤ encThreshold T10 F10 0)) :=
  ⟨by norm_num, T10_feasible, by decide, by decide, by decide,
   rounded_threshold_decides_branch T10 (1/4) 1 F10 (X10 0) (Y10 0) (A10 0) 0
     (by norm_num) T10_feasible (by decide) (by decide) (by decide)⟩
